import Mathlib

/-!
Shallow embedding of the command-safety gateway of the repository
(src/security.ts and the two execution entry points of src/config.ts).
Machine strings are modelled as Lean String / List Char; JavaScript
regular expressions are embedded as a small first-order regex AST with
an executable backtracking matcher; thrown JavaScript errors are
modelled as Except values carrying the structured data that the error
message of the source interpolates.
-/

/-- The single-quote character, code point 39. -/
def squote : Char := Char.ofNat 39

/-- The double-quote character, code point 34. -/
def dquote : Char := Char.ofNat 34

/-- The backquote character, code point 96. -/
def bquote : Char := Char.ofNat 96

/-- The left brace character, code point 123. -/
def lbrace : Char := Char.ofNat 123

/-- The right brace character, code point 125. -/
def rbrace : Char := Char.ofNat 125

/-- JavaScript regex word character class, backslash-w: ASCII letters, digits, underscore. -/
def isWordChar (c : Char) : Bool :=
  (65 ≤ c.toNat && c.toNat ≤ 90) || (97 ≤ c.toNat && c.toNat ≤ 122) ||
    (48 ≤ c.toNat && c.toNat ≤ 57) || c.toNat = 95

/-- JavaScript regex whitespace class, backslash-s: tab through carriage return,
space, no-break space, ogham space mark, the U+2000 to U+200A range, line and
paragraph separators, narrow no-break space, medium mathematical space,
ideographic space, and the byte order mark. -/
def isJsWhitespace (c : Char) : Bool :=
  let n := c.toNat
  (9 ≤ n && n ≤ 13) || n = 32 || n = 160 || n = 0x1680 ||
    (0x2000 ≤ n && n ≤ 0x200A) || n = 0x2028 || n = 0x2029 ||
    n = 0x202F || n = 0x205F || n = 0x3000 || n = 0xFEFF

/-- JavaScript regex digit class, backslash-d. -/
def isDigitChar (c : Char) : Bool :=
  48 ≤ c.toNat && c.toNat ≤ 57

/-- ASCII lowercase canonicalization used for the case-insensitive regex flag. -/
def lowerNat (c : Char) : Nat :=
  if 65 ≤ c.toNat && c.toNat ≤ 90 then c.toNat + 32 else c.toNat

/-- Character classes appearing in the regexes of the source. -/
inductive CClass
| ws
| digit
deriving DecidableEq

/-- Membership test of a character class. -/
def CClass.test : CClass → Char → Bool
  | .ws, c => isJsWhitespace c
  | .digit, c => isDigitChar c

/-- Regex AST covering the constructs used by the denylist and write-intent
patterns of the source: literals under the case-insensitive flag, the
whitespace and digit classes, Kleene star over a class, sequencing,
alternation, word boundary, and the end anchor. -/
inductive RE
| eps
| lit (c : Char)
| cls (k : CClass)
| clsStar (k : CClass)
| seq (a b : RE)
| alt (a b : RE)
| wb
| eos
deriving DecidableEq

/-- All states reachable by consuming zero or more characters of the given
class.  A state is the previously consumed character, when any, paired with
the remaining input. -/
def starCls (k : CClass) : Option Char → List Char → List (Option Char × List Char)
  | prev, [] => [(prev, [])]
  | prev, c :: rest =>
      (prev, c :: rest) :: (if k.test c then starCls k (some c) rest else [])

/-- Word boundary test between the previously consumed character and the next
input character; positions outside the string count as non-word. -/
def boundaryHere (prev : Option Char) (rest : List Char) : Bool :=
  let a := match prev with
    | none => false
    | some c => isWordChar c
  let b := match rest with
    | [] => false
    | c :: _ => isWordChar c
  a != b

/-- Backtracking matcher: all states reachable by matching the regex from the
given state.  Literal characters compare case-insensitively, matching the i
flag carried by every regex of the source. -/
def matchM : RE → Option Char × List Char → List (Option Char × List Char)
  | .eps, st => [st]
  | .lit _, (_, []) => []
  | .lit p, (_, c :: rest) => if lowerNat p = lowerNat c then [(some c, rest)] else []
  | .cls _, (_, []) => []
  | .cls k, (_, c :: rest) => if k.test c then [(some c, rest)] else []
  | .clsStar k, st => starCls k st.1 st.2
  | .seq a b, st => (matchM a st).foldr (fun st2 acc => matchM b st2 ++ acc) []
  | .alt a b, st => matchM a st ++ matchM b st
  | .wb, (prev, rest) => if boundaryHere prev rest then [(prev, rest)] else []
  | .eos, (prev, rest) => if rest.isEmpty then [(prev, rest)] else []

/-- Untethered search: does the regex match starting at this or any later
position of the remaining input. -/
def testFrom (re : RE) : Option Char → List Char → Bool
  | prev, rest =>
      !(matchM re (prev, rest)).isEmpty ||
        (match rest with
         | [] => false
         | c :: r => testFrom re (some c) r)

/-- The JavaScript RegExp test method: match anywhere in the string. -/
def reTest (re : RE) (s : List Char) : Bool := testFrom re none s

/-- A sequence of case-insensitive literal characters. -/
def lits (s : String) : RE := s.data.foldr (fun c r => RE.seq (RE.lit c) r) RE.eps

/-- Sequence a list of regexes. -/
def reCat (rs : List RE) : RE := rs.foldr RE.seq RE.eps

/-- An optional group, question mark in the source regexes. -/
def reOpt (r : RE) : RE := RE.alt RE.eps r

/-- One or more whitespace characters, backslash-s-plus in the source regexes. -/
def wsPlus : RE := RE.seq (RE.cls CClass.ws) (RE.clsStar CClass.ws)

/-- Left-nested alternation of a head regex and further alternatives. -/
def altList (r : RE) (rs : List RE) : RE := rs.foldl RE.alt r

/-- A denial rule of the source: a pattern matched against a command string
paired with a human-readable reason. -/
structure DenyPattern where
  regex : RE
  reason : String
deriving DecidableEq

/-- Denial rule for full filesystem deletion. -/
def denyRmRf : DenyPattern :=
  { regex := reCat [RE.wb, lits "rm", wsPlus, lits "-rf", wsPlus, RE.lit '/',
      RE.alt (RE.cls CClass.ws) RE.eos],
    reason := "Refuses full filesystem deletion (rm -rf /)." }

/-- Denial rule for filesystem formatting. -/
def denyMkfs : DenyPattern :=
  { regex := reCat [RE.wb, lits "mkfs", RE.wb],
    reason := "Refuses filesystem formatting command." }

/-- Denial rule for raw disk overwrite. -/
def denyDd : DenyPattern :=
  { regex := reCat [RE.wb, lits "dd", wsPlus, lits "if="],
    reason := "Refuses raw disk overwrite command." }

/-- Denial rule for remote shutdown. -/
def denyShutdown : DenyPattern :=
  { regex := reCat [RE.wb, lits "shutdown", RE.wb],
    reason := "Refuses remote shutdown command." }

/-- Denial rule for remote reboot. -/
def denyReboot : DenyPattern :=
  { regex := reCat [RE.wb, lits "reboot", RE.wb],
    reason := "Refuses remote reboot command." }

/-- Denial rule for remote halt. -/
def denyHalt : DenyPattern :=
  { regex := reCat [RE.wb, lits "halt", RE.wb],
    reason := "Refuses remote halt command." }

/-- Denial rule for destructive launchctl operations. -/
def denyLaunchctl : DenyPattern :=
  { regex := reCat [RE.wb, lits "launchctl", wsPlus,
      RE.alt (lits "bootout") (lits "remove"), RE.wb],
    reason := "Refuses launchctl destructive operation." }

/-- Denial rule for package removal. -/
def denyAptRemove : DenyPattern :=
  { regex := reCat [RE.wb, lits "apt", reOpt (lits "-get"), wsPlus,
      RE.alt (lits "remove") (lits "purge"), RE.wb],
    reason := "Refuses package removal command." }

/-- Denial rule for the recursive immutable flag. -/
def denyChflags : DenyPattern :=
  { regex := reCat [RE.wb, lits "chflags", wsPlus, lits "-R", wsPlus, lits "uchg", RE.wb],
    reason := "Refuses recursive immutable flag write." }

/-- The ordered denial rule table DENY_PATTERNS of the source. -/
def DENY_PATTERNS : List DenyPattern :=
  [denyRmRf, denyMkfs, denyDd, denyShutdown, denyReboot, denyHalt,
   denyLaunchctl, denyAptRemove, denyChflags]

/-- Word alternation of the first write-intent pattern of the source. -/
def writeWords : RE :=
  altList (lits "touch")
    [lits "mkdir", lits "rmdir", lits "mv", lits "cp", lits "rm", lits "ln",
     lits "install", lits "tee", lits "truncate", lits "chmod", lits "chown",
     lits "chgrp"]

/-- The write-intent signature table WRITE_COMMAND_PATTERNS of the source. -/
def WRITE_COMMAND_PATTERNS : List RE :=
  [reCat [RE.wb, writeWords, RE.wb],
   reCat [RE.wb, lits "sed", wsPlus, lits "-i", RE.wb],
   reCat [RE.wb, lits "perl", wsPlus, lits "-i", RE.wb],
   reCat [RE.wb, lits "python", RE.clsStar CClass.digit,
     reOpt (reCat [RE.lit '.', RE.cls CClass.digit, RE.clsStar CClass.digit]),
     wsPlus, lits "-m", wsPlus, lits "pip", wsPlus, lits "install", RE.wb],
   reCat [RE.wb, lits "apt", reOpt (lits "-get"), wsPlus, lits "install", RE.wb]]

/-- matchDeniedPattern of the source: first denial rule whose pattern matches
the command, else none. -/
def matchDeniedPattern (command : String) : Option DenyPattern :=
  DENY_PATTERNS.find? (fun p => reTest p.regex command.data)

/-- isLikelyWriteCommand of the source: true when some write-intent signature
matches anywhere in the command. -/
def isLikelyWriteCommand (command : String) : Bool :=
  WRITE_COMMAND_PATTERNS.any (fun r => reTest r command.data)

/-- Character-level body of shellQuote: every single quote becomes the
four-character run close-quote, backslash, quote, reopen-quote. -/
def shellQuoteBody : List Char → List Char
  | [] => []
  | c :: rest =>
      if c = squote then squote :: '\\' :: squote :: squote :: shellQuoteBody rest
      else c :: shellQuoteBody rest

/-- shellQuote of the source: wrap in single quotes, replacing every literal
single quote globally. -/
def shellQuote (s : String) : String :=
  String.mk (squote :: (shellQuoteBody s.data ++ [squote]))

/-- The character class of the escapeScpRemotePath regex, besides whitespace. -/
def scpSpecialChars : List Char :=
  ['\\', dquote, squote, bquote, '$', '!', '#', '&', '*', '(', ')',
   '[', ']', lbrace, rbrace, ';', '<', '>', '?', '|', '~', ':']

/-- Membership in the escaped character class of escapeScpRemotePath. -/
def isScpSpecial (c : Char) : Bool :=
  isJsWhitespace c || scpSpecialChars.contains c

/-- Character-level body of escapeScpRemotePath: a backslash is inserted before
every character of the class; nothing else changes. -/
def escapeScpBody : List Char → List Char
  | [] => []
  | c :: rest =>
      if isScpSpecial c then '\\' :: c :: escapeScpBody rest
      else c :: escapeScpBody rest

/-- escapeScpRemotePath of the source. -/
def escapeScpRemotePath (s : String) : String :=
  String.mk (escapeScpBody s.data)

/-- Split a character list at every slash; adjacent slashes yield empty
segments, mirroring how the node normalization loop sees them. -/
def splitSlash : List Char → List (List Char)
  | [] => [[]]
  | c :: rest =>
      let r := splitSlash rest
      if c = '/' then [] :: r
      else (c :: r.headD []) :: r.tail

/-- One step of the node posix normalizeString segment loop, on a reversed
accumulator: empty and dot segments are dropped, dot-dot pops the previous
segment or, above the root of a relative path, is kept. -/
def stepSeg (allowAbove : Bool) (acc : List (List Char)) (seg : List Char) : List (List Char) :=
  if seg = [] ∨ seg = ['.'] then acc
  else if seg = ['.', '.'] then
    match acc with
    | [] => if allowAbove then [['.', '.']] else []
    | top :: rest => if allowAbove && top = ['.', '.'] then seg :: acc else rest
  else seg :: acc

/-- Join segments with single slashes. -/
def joinSegs : List (List Char) → List Char
  | [] => []
  | [s] => s
  | s :: ss => s ++ '/' :: joinSegs ss

/-- The node path.posix.normalize algorithm on character lists: empty input is
dot; otherwise segments are normalized lexically, dot-dot may rise above the
root only for relative paths, a leading slash and a trailing slash of the
input are preserved, and an input that collapses to nothing becomes slash,
dot-slash, or dot. -/
def posixNormalizeChars (l : List Char) : List Char :=
  if l = [] then ['.']
  else
    let allowAbove := if l.head? = some '/' then false else true
    let core := ((splitSlash l).foldl (stepSeg allowAbove) []).reverse
    if core = [] then
      if l.head? = some '/' then ['/']
      else if l.getLast? = some '/' then ['.', '/'] else ['.']
    else
      let j := if l.getLast? = some '/' then joinSegs core ++ ['/'] else joinSegs core
      if l.head? = some '/' then '/' :: j else j

/-- A segment emitted by the normalization of an absolute path: nonempty, not
dot, not dot-dot, slash-free. -/
def goodSeg (s : List Char) : Prop :=
  s ≠ [] ∧ s ≠ ['.'] ∧ s ≠ ['.', '.'] ∧ '/' ∉ s

/-- path.posix.normalize on strings. -/
def posixNormalize (s : String) : String :=
  String.mk (posixNormalizeChars s.data)

/-- Structured error data of the security layer; the source throws Error
values whose messages interpolate exactly these fields. -/
inductive SecError
| InvalidPath (p : String)
| WritePathBlocked (roots : List String) (denied : List String)
deriving DecidableEq

/-- normalizeRemotePath of the source: reject a path that does not start with
a slash, else normalize lexically. -/
def normalizeRemotePath (s : String) : Except SecError String :=
  if s.data.head? = some '/' then Except.ok (posixNormalize s)
  else Except.error (SecError.InvalidPath s)

/-- pathWithinRoots of the source: the target equals some lexically normalized
root, or extends it immediately past a slash. -/
def pathWithinRoots (target : String) (roots : List String) : Bool :=
  roots.any (fun root =>
    let nr := posixNormalize root
    target == nr || List.isPrefixOf (nr ++ "/").data target.data)

/-- The paths.map(normalizeRemotePath) step of ensureAllowedWritePaths; the
JavaScript map propagates the first thrown normalization error. -/
def normalizeAll : List String → Except SecError (List String)
  | [] => Except.ok []
  | p :: rest =>
      match normalizeRemotePath p with
      | Except.error e => Except.error e
      | Except.ok q =>
          match normalizeAll rest with
          | Except.error e => Except.error e
          | Except.ok qs => Except.ok (q :: qs)

/-- ensureAllowedWritePaths of the source: normalize every path, collect the
normalized paths outside every allowed root, fail with the full root list and
the full denied list when any exists, else return the normalized paths. -/
def ensureAllowedWritePaths (paths allowedRoots : List String) : Except SecError (List String) :=
  match normalizeAll paths with
  | Except.error e => Except.error e
  | Except.ok normalized =>
      let denied := normalized.filter (fun entry => !(pathWithinRoots entry allowedRoots))
      if 0 < denied.length then
        Except.error (SecError.WritePathBlocked allowedRoots denied)
      else Except.ok normalized

/-- Quoting state of the POSIX shell word parser model: outside quotes, inside
single quotes, inside double quotes. -/
inductive QState
| norm
| single
| double
deriving DecidableEq

/-- Unquoted characters that terminate a word or trigger expansion in a POSIX
shell; a candidate single word containing one of these unquoted is rejected. -/
def isShellMeta (c : Char) : Bool :=
  c = ' ' || c = Char.ofNat 9 || c = Char.ofNat 10 || c = '|' || c = '&' ||
    c = ';' || c = '<' || c = '>' || c = '(' || c = ')' || c = '$' ||
    c = bquote || c = '*' || c = '?' || c = '['

/-- Model of POSIX shell single-word parsing with quote removal, from the
Shell Command Language quoting rules: backslash escapes the next character
and a backslash-newline is removed, single quotes are literal until the next
single quote, double quotes are literal except that backslash escapes dollar,
backquote, double quote and backslash, and unquoted metacharacters or any
expansion make the input not a single literal word. -/
def wordAux : QState → List Char → Option (List Char)
  | .norm, [] => some []
  | .norm, c :: rest =>
      if c = squote then wordAux .single rest
      else if c = dquote then wordAux .double rest
      else if c = '\\' then
        match rest with
        | [] => none
        | d :: rest2 =>
            if d = Char.ofNat 10 then wordAux .norm rest2
            else (wordAux .norm rest2).map (fun t => d :: t)
      else if isShellMeta c then none
      else (wordAux .norm rest).map (fun t => c :: t)
  | .single, [] => none
  | .single, c :: rest =>
      if c = squote then wordAux .norm rest
      else (wordAux .single rest).map (fun t => c :: t)
  | .double, [] => none
  | .double, c :: rest =>
      if c = dquote then wordAux .norm rest
      else if c = '\\' then
        match rest with
        | [] => none
        | d :: rest2 =>
            if d = '$' || d = bquote || d = dquote || d = '\\' then
              (wordAux .double rest2).map (fun t => d :: t)
            else if d = Char.ofNat 10 then wordAux .double rest2
            else (wordAux .double rest2).map (fun t => '\\' :: d :: t)
      else if c = '$' || c = bquote then none
      else (wordAux .double rest).map (fun t => c :: t)

/-- Parse an entire character list as one POSIX shell word, yielding the
literal field value after quote removal. -/
def posixParseWord (l : List Char) : Option (List Char) :=
  wordAux QState.norm l

/-- Errors of the two execution entry points of src/config.ts. -/
inductive ExecError
| DeniedByPolicy (reason : String)
| WriteIntentOnReadPath
| PathCheckFailed (e : SecError)
deriving DecidableEq

/-- The effect an entry point hands to the transport; execute models the call
of ssh.execRemote with the given command. -/
inductive ExecAction
| execute (cmd : String)
deriving DecidableEq

/-- execReadCommand of src/config.ts: denylist first, then the write-intent
classifier, and only then the transport call. -/
def execReadCommand (command : String) : Except ExecError ExecAction :=
  match matchDeniedPattern command with
  | some d => Except.error (ExecError.DeniedByPolicy d.reason)
  | none =>
      if isLikelyWriteCommand command then Except.error ExecError.WriteIntentOnReadPath
      else Except.ok (ExecAction.execute command)

/-- execWriteCommand of src/config.ts: denylist first, then the declared
write paths are checked against the configured allowed write roots, passed
here explicitly in place of config.allowedWriteRoots, and only then the
transport call. -/
def execWriteCommand (command : String) (writePaths allowedWriteRoots : List String) :
    Except ExecError ExecAction :=
  match matchDeniedPattern command with
  | some d => Except.error (ExecError.DeniedByPolicy d.reason)
  | none =>
      match ensureAllowedWritePaths writePaths allowedWriteRoots with
      | Except.error e => Except.error (ExecError.PathCheckFailed e)
      | Except.ok _ => Except.ok (ExecAction.execute command)


/-- Opening single quote enters single-quoting mode. -/
theorem wordAux_norm_squote (rest : List Char) :
    wordAux QState.norm (squote :: rest) = wordAux QState.single rest := by
  rw [wordAux.eq_def]
  simp

/-- Closing single quote leaves single-quoting mode. -/
theorem wordAux_single_squote (rest : List Char) :
    wordAux QState.single (squote :: rest) = wordAux QState.norm rest := by
  rw [wordAux.eq_def]
  simp

/-- Inside single quotes every character except the single quote is literal. -/
theorem wordAux_single_other (c : Char) (h : ¬ c = squote) (rest : List Char) :
    wordAux QState.single (c :: rest) = (wordAux QState.single rest).map (fun t => c :: t) := by
  rw [wordAux.eq_def]
  simp [h]

/-- An unquoted backslash before a single quote yields a literal single quote. -/
theorem wordAux_norm_bslash_squote (rest : List Char) :
    wordAux QState.norm ('\\' :: squote :: rest) =
      (wordAux QState.norm rest).map (fun t => squote :: t) := by
  have h1 : ¬ ('\\' : Char) = squote := by decide
  have h2 : ¬ ('\\' : Char) = dquote := by decide
  have h3 : ¬ squote = Char.ofNat 10 := by decide
  rw [wordAux.eq_def]
  simp [h1, h2, h3]

/-- The quoted body produced by shellQuote, followed by the closing quote,
parses from single-quote mode back to the original characters. -/
theorem wordAux_single_shellQuoteBody (l : List Char) :
    wordAux QState.single (shellQuoteBody l ++ [squote]) = some l := by
  induction l with
  | nil =>
    rw [shellQuoteBody, List.nil_append, wordAux_single_squote, wordAux.eq_def]
  | cons c t ih =>
    by_cases h : c = squote
    · subst h
      rw [shellQuoteBody, if_pos rfl, List.cons_append, wordAux_single_squote,
        List.cons_append, List.cons_append, List.cons_append,
        wordAux_norm_bslash_squote, wordAux_norm_squote, ih]
      rfl
    · rw [shellQuoteBody, if_neg h, List.cons_append, wordAux_single_other c h, ih]
      rfl

/-- The escaping pass expands exactly the special characters, one by one. -/
theorem escapeScpBody_eq_bind (l : List Char) :
    escapeScpBody l = l.flatMap (fun c => if isScpSpecial c then ['\\', c] else [c]) := by
  induction l with
  | nil => rfl
  | cons c t ih =>
    by_cases h : isScpSpecial c = true
    · simp [escapeScpBody, h, ih]
    · simp [escapeScpBody, h, ih]

/-- Every character of the escaped output is an inserted backslash or a
character of the input. -/
theorem escapeScpBody_mem (l : List Char) (c : Char) (h : c ∈ escapeScpBody l) :
    c = '\\' ∨ c ∈ l := by
  induction l with
  | nil => simp [escapeScpBody] at h
  | cons a t ih =>
    by_cases ha : isScpSpecial a = true
    · rw [escapeScpBody, if_pos ha] at h
      rcases List.mem_cons.mp h with rfl | h2
      · exact Or.inl rfl
      · rcases List.mem_cons.mp h2 with rfl | h3
        · exact Or.inr (List.mem_cons_self c t)
        · rcases ih h3 with hb | hm
          · exact Or.inl hb
          · exact Or.inr (List.mem_cons_of_mem a hm)
    · rw [escapeScpBody, if_neg ha] at h
      rcases List.mem_cons.mp h with rfl | h2
      · exact Or.inr (List.mem_cons_self c t)
      · rcases ih h2 with hb | hm
        · exact Or.inl hb
        · exact Or.inr (List.mem_cons_of_mem a hm)

/-- Characterization of find? on a list: either nothing satisfies the
predicate, or the returned element is the first, by index, that does. -/
theorem find_first_spec {α : Type} (p : α → Bool) (l : List α) :
    (l.find? p = none ∧ ∀ a ∈ l, p a = false) ∨
    (∃ i : Fin l.length, l.find? p = some (l.get i) ∧ p (l.get i) = true ∧
       ∀ j : Fin l.length, j.val < i.val → p (l.get j) = false) := by
  induction l with
  | nil => exact Or.inl ⟨rfl, by simp⟩
  | cons a t ih =>
    by_cases h : p a = true
    · refine Or.inr ⟨⟨0, Nat.succ_pos _⟩, ?_, ?_, ?_⟩
      · simpa using List.find?_cons_of_pos t h
      · simpa using h
      · intro j hj
        exact absurd hj (Nat.not_lt_zero _)
    · have hfa : p a = false := Bool.eq_false_iff.mpr h
      have hstep : (a :: t).find? p = t.find? p := List.find?_cons_of_neg t h
      rcases ih with ⟨hn, hall⟩ | ⟨i, hf, hp, hfirst⟩
      · refine Or.inl ⟨by rw [hstep, hn], ?_⟩
        intro x hx
        rcases List.mem_cons.mp hx with rfl | hx2
        · exact hfa
        · exact hall x hx2
      · refine Or.inr ⟨⟨i.val + 1, Nat.succ_lt_succ i.isLt⟩, ?_, ?_, ?_⟩
        · rw [hstep, hf]
          simp [List.get_cons_succ]
        · simpa [List.get_cons_succ] using hp
        · intro j hj
          rcases j with ⟨jv, hjlt⟩
          cases jv with
          | zero => simpa using hfa
          | succ k =>
            have hk : k < t.length := Nat.lt_of_succ_lt_succ hjlt
            have hlt : k < i.val := Nat.lt_of_succ_lt_succ hj
            have := hfirst ⟨k, hk⟩ hlt
            simpa [List.get_cons_succ] using this

/-- When every path is absolute, the normalization map succeeds elementwise. -/
theorem normalizeAll_ok (ps : List String) (h : ∀ p ∈ ps, p.data.head? = some '/') :
    normalizeAll ps = Except.ok (ps.map posixNormalize) := by
  induction ps with
  | nil => rfl
  | cons a t ih =>
    have ha : a.data.head? = some '/' := h a (List.mem_cons_self a t)
    have ht : ∀ p ∈ t, p.data.head? = some '/' := fun p hp => h p (List.mem_cons_of_mem a hp)
    simp [normalizeAll, normalizeRemotePath, ha, ih ht]

/-- When some path is not absolute, the normalization map fails with an
invalid-path error for a non-absolute element of the list. -/
theorem normalizeAll_first_invalid :
    ∀ (ps : List String) (p : String), p ∈ ps → ¬ p.data.head? = some '/' →
      ∃ q, q ∈ ps ∧ ¬ q.data.head? = some '/' ∧
        normalizeAll ps = Except.error (SecError.InvalidPath q) := by
  intro ps
  induction ps with
  | nil =>
    intro p hp
    exact absurd hp (List.not_mem_nil p)
  | cons a t ih =>
    intro p hp hbad
    by_cases ha : a.data.head? = some '/'
    · have hpt : p ∈ t := by
        rcases List.mem_cons.mp hp with rfl | h2
        · exact absurd ha hbad
        · exact h2
      rcases ih p hpt hbad with ⟨q, hq, hqb, he⟩
      refine ⟨q, List.mem_cons_of_mem a hq, hqb, ?_⟩
      simp [normalizeAll, normalizeRemotePath, ha, he]
    · refine ⟨a, List.mem_cons_self a t, ha, ?_⟩
      simp [normalizeAll, normalizeRemotePath, ha]

/-- Splitting at slashes never yields an empty list of segments. -/
theorem splitSlash_ne_nil (l : List Char) : splitSlash l ≠ [] := by
  cases l with
  | nil => simp [splitSlash]
  | cons c rest =>
    simp only [splitSlash]
    split <;> simp

/-- No segment produced by splitting at slashes contains a slash. -/
theorem mem_splitSlash_no_slash (l : List Char) :
    ∀ s ∈ splitSlash l, '/' ∉ s := by
  induction l with
  | nil =>
    intro s hs
    simp [splitSlash] at hs
    simp [hs]
  | cons c rest ih =>
    intro s hs
    simp only [splitSlash] at hs
    by_cases hc : c = '/'
    · rw [if_pos hc] at hs
      rcases List.mem_cons.mp hs with rfl | h2
      · simp
      · exact ih s h2
    · rw [if_neg hc] at hs
      rcases List.mem_cons.mp hs with rfl | h2
      · intro hmem
        rcases List.mem_cons.mp hmem with heq | h3
        · exact hc heq.symm
        · have hh : (splitSlash rest).headD [] ∈ splitSlash rest := by
            cases hsp : splitSlash rest with
            | nil => exact absurd hsp (splitSlash_ne_nil rest)
            | cons x xs => simp
          exact ih _ hh h3
      · exact ih s (List.mem_of_mem_tail h2)

/-- The segment fold of an absolute path only keeps good segments. -/
theorem foldl_stepSeg_good (segs : List (List Char)) :
    ∀ acc : List (List Char), (∀ s ∈ segs, '/' ∉ s) → (∀ s ∈ acc, goodSeg s) →
      ∀ s ∈ segs.foldl (stepSeg false) acc, goodSeg s := by
  induction segs with
  | nil =>
    intro acc _ hacc
    simpa using hacc
  | cons a t ih =>
    intro acc hsegs hacc
    have hstep : ∀ s ∈ stepSeg false acc a, goodSeg s := by
      intro s hs
      unfold stepSeg at hs
      by_cases h1 : a = [] ∨ a = ['.']
      · rw [if_pos h1] at hs
        exact hacc s hs
      · rw [if_neg h1] at hs
        by_cases h2 : a = ['.', '.']
        · rw [if_pos h2] at hs
          cases hacc2 : acc with
          | nil =>
            rw [hacc2] at hs
            simp at hs
          | cons top rest =>
            rw [hacc2] at hs
            simp only [Bool.false_and, if_neg] at hs
            exact hacc s (hacc2 ▸ List.mem_cons_of_mem top hs)
        · rw [if_neg h2] at hs
          rcases List.mem_cons.mp hs with rfl | h3
          · push_neg at h1
            exact ⟨h1.1, h1.2, h2, hsegs s (List.mem_cons_self s t)⟩
          · exact hacc s h3
    rw [List.foldl_cons]
    exact ih (stepSeg false acc a) (fun s hs => hsegs s (List.mem_cons_of_mem a hs)) hstep

/-- A fold over segments that are already good pushes them all in order. -/
theorem foldl_stepSeg_push (segs : List (List Char)) :
    ∀ acc : List (List Char), (∀ s ∈ segs, goodSeg s) →
      segs.foldl (stepSeg false) acc = segs.reverse ++ acc := by
  induction segs with
  | nil => intro acc _; simp
  | cons a t ih =>
    intro acc h
    have ha : goodSeg a := h a (List.mem_cons_self a t)
    have hstep : stepSeg false acc a = a :: acc := by
      unfold stepSeg
      rw [if_neg (fun hh => hh.elim ha.1 ha.2.1), if_neg ha.2.2.1]
    rw [List.foldl_cons, hstep, ih (a :: acc) (fun s hs => h s (List.mem_cons_of_mem a hs))]
    simp

/-- A slash-free character list splits into the single segment it is. -/
theorem slash_free_splitSlash (s : List Char) (h : '/' ∉ s) : splitSlash s = [s] := by
  induction s with
  | nil => rfl
  | cons c t ih =>
    have hc : ¬ c = '/' := by
      intro hh
      exact h (by rw [hh]; exact List.mem_cons_self '/' t)
    have ht : '/' ∉ t := fun hh => h (List.mem_cons_of_mem c hh)
    simp [splitSlash, if_neg hc, ih ht]

/-- Splitting a slash-free segment followed by a slash peels the segment. -/
theorem splitSlash_append_slash_cons (s : List Char) :
    ∀ m : List Char, '/' ∉ s → splitSlash (s ++ '/' :: m) = s :: splitSlash m := by
  induction s with
  | nil =>
    intro m _
    simp [splitSlash]
  | cons c t ih =>
    intro m h
    have hc : ¬ c = '/' := by
      intro hh
      exact h (by rw [hh]; exact List.mem_cons_self '/' t)
    have ht : '/' ∉ t := fun hh => h (List.mem_cons_of_mem c hh)
    show splitSlash (c :: (t ++ '/' :: m)) = (c :: t) :: splitSlash m
    simp [splitSlash, if_neg hc, ih m ht]

/-- A trailing slash contributes one final empty segment. -/
theorem splitSlash_append_slash_end (m : List Char) :
    splitSlash (m ++ ['/']) = splitSlash m ++ [[]] := by
  induction m with
  | nil => rfl
  | cons c t ih =>
    by_cases hc : c = '/'
    · subst hc
      simp [splitSlash, ih]
    · cases hsp : splitSlash t with
      | nil => exact absurd hsp (splitSlash_ne_nil t)
      | cons x xs =>
        show splitSlash (c :: (t ++ ['/'])) = splitSlash (c :: t) ++ [[]]
        simp only [splitSlash, if_neg hc]
        rw [ih, hsp]
        simp

/-- Joining nonempty segments yields a nonempty character list. -/
theorem joinSegs_ne_nil (core : List (List Char)) (hne : core ≠ [])
    (h : ∀ s ∈ core, s ≠ []) : joinSegs core ≠ [] := by
  cases core with
  | nil => exact absurd rfl hne
  | cons s ss =>
    cases ss with
    | nil => simpa [joinSegs] using h s (by simp)
    | cons t ts => simp [joinSegs]

/-- Splitting inverts joining for nonempty slash-free segment lists. -/
theorem splitSlash_joinSegs (core : List (List Char)) :
    core ≠ [] → (∀ s ∈ core, '/' ∉ s) → splitSlash (joinSegs core) = core := by
  induction core with
  | nil => intro h; exact absurd rfl h
  | cons s ss ih =>
    intro _ h
    cases ss with
    | nil => exact slash_free_splitSlash s (h s (by simp))
    | cons t ts =>
      show splitSlash (s ++ '/' :: joinSegs (t :: ts)) = s :: t :: ts
      rw [splitSlash_append_slash_cons s (joinSegs (t :: ts)) (h s (by simp))]
      rw [ih (by simp) (fun x hx => h x (List.mem_cons_of_mem s hx))]

/-- The joined form of nonempty slash-free segments does not end in a slash. -/
theorem getLast_joinSegs_ne_slash (core : List (List Char)) :
    core ≠ [] → (∀ s ∈ core, s ≠ [] ∧ '/' ∉ s) →
    ¬ (joinSegs core).getLast? = some '/' := by
  induction core with
  | nil => intro h; exact absurd rfl h
  | cons s ss ih =>
    intro _ h
    cases ss with
    | nil =>
      intro hl
      have hs := h s (by simp)
      have hl2 : s.getLast? = some '/' := hl
      have heq : s.getLast hs.1 = '/' := by
        have hgl := List.getLast?_eq_getLast_of_ne_nil hs.1
        rw [hgl] at hl2
        exact Option.some.inj hl2
      have hmem : '/' ∈ s := heq ▸ List.getLast_mem hs.1
      exact hs.2 hmem
    | cons t ts =>
      show ¬ (s ++ '/' :: joinSegs (t :: ts)).getLast? = some '/'
      have hne2 : joinSegs (t :: ts) ≠ [] :=
        joinSegs_ne_nil (t :: ts) (by simp)
          (fun x hx => (h x (List.mem_cons_of_mem s hx)).1)
      rw [List.getLast?_append_of_ne_nil s (by simp)]
      have h1 : ('/' :: joinSegs (t :: ts)).getLast? = (joinSegs (t :: ts)).getLast? := by
        show ((['/'] : List Char) ++ joinSegs (t :: ts)).getLast? = _
        exact List.getLast?_append_of_ne_nil ['/'] hne2
      rw [h1]
      exact ih (by simp) (fun x hx => h x (List.mem_cons_of_mem s hx))

/-- On an absolute path the normalization takes the absolute branch: the
result is a slash, then the surviving segments, then the preserved trailing
slash. -/
theorem posixNormalizeChars_abs (l : List Char) (habs : l.head? = some '/') :
    posixNormalizeChars l =
      (if ((splitSlash l).foldl (stepSeg false) []).reverse = [] then ['/']
       else if l.getLast? = some '/' then
         '/' :: (joinSegs ((splitSlash l).foldl (stepSeg false) []).reverse ++ ['/'])
       else '/' :: joinSegs ((splitSlash l).foldl (stepSeg false) []).reverse) := by
  have hlne : l ≠ [] := by
    intro h
    rw [h] at habs
    simp at habs
  simp only [posixNormalizeChars, if_neg hlne, habs, reduceCtorEq]
  simp
  split
  · rfl
  · split <;> rfl

/-- Normalizing an absolute path yields an absolute path, and normalizing a
second time changes nothing. -/
theorem posix_norm_abs_spec (l : List Char) (habs : l.head? = some '/') :
    (posixNormalizeChars l).head? = some '/' ∧
    posixNormalizeChars (posixNormalizeChars l) = posixNormalizeChars l := by
  rw [posixNormalizeChars_abs l habs]
  set core := ((splitSlash l).foldl (stepSeg false) []).reverse with hcore
  by_cases hc : core = []
  · rw [if_pos hc]
    exact ⟨rfl, by decide⟩
  · rw [if_neg hc]
    have hgood : ∀ s ∈ core, goodSeg s := by
      intro s hs
      exact foldl_stepSeg_good (splitSlash l) [] (mem_splitSlash_no_slash l) (by simp) s
        (List.mem_reverse.mp (hcore ▸ hs))
    have hneq : core ≠ [] := hc
    have hnoslash : ∀ s ∈ core, '/' ∉ s := fun s hs => (hgood s hs).2.2.2
    have hnonempty : ∀ s ∈ core, s ≠ [] := fun s hs => (hgood s hs).1
    by_cases ht : l.getLast? = some '/'
    · rw [if_pos ht]
      refine ⟨rfl, ?_⟩
      have hn_head : ('/' :: (joinSegs core ++ ['/'])).head? = some '/' := rfl
      rw [posixNormalizeChars_abs _ hn_head]
      have hsplit : splitSlash ('/' :: (joinSegs core ++ ['/'])) = [] :: (core ++ [[]]) := by
        have h2 : splitSlash ('/' :: (joinSegs core ++ ['/'])) =
            [] :: splitSlash (joinSegs core ++ ['/']) := by
          simp [splitSlash]
        rw [h2, splitSlash_append_slash_end, splitSlash_joinSegs core hneq hnoslash]
      have hfold : ((splitSlash ('/' :: (joinSegs core ++ ['/']))).foldl
          (stepSeg false) []).reverse = core := by
        rw [hsplit, List.foldl_cons]
        have h0 : stepSeg false [] ([] : List Char) = [] := rfl
        rw [h0, List.foldl_append, foldl_stepSeg_push core [] hgood]
        have h1 : ([[]] : List (List Char)).foldl (stepSeg false) (core.reverse ++ []) =
            core.reverse ++ [] := by
          simp [stepSeg]
        rw [h1]
        simp
      rw [hfold, if_neg hneq]
      have hlast : ('/' :: (joinSegs core ++ ['/'])).getLast? = some '/' := by
        show ((('/' :: joinSegs core) : List Char) ++ ['/']).getLast? = some '/'
        exact List.getLast?_concat _
      rw [if_pos hlast]
    · rw [if_neg ht]
      refine ⟨rfl, ?_⟩
      have hn_head : ('/' :: joinSegs core).head? = some '/' := rfl
      rw [posixNormalizeChars_abs _ hn_head]
      have hsplit : splitSlash ('/' :: joinSegs core) = [] :: core := by
        have h2 : splitSlash ('/' :: joinSegs core) = [] :: splitSlash (joinSegs core) := by
          simp [splitSlash]
        rw [h2, splitSlash_joinSegs core hneq hnoslash]
      have hfold : ((splitSlash ('/' :: joinSegs core)).foldl (stepSeg false) []).reverse = core := by
        rw [hsplit, List.foldl_cons]
        have h0 : stepSeg false [] ([] : List Char) = [] := rfl
        rw [h0, foldl_stepSeg_push core [] hgood]
        simp
      rw [hfold, if_neg hneq]
      have hlast : ¬ ('/' :: joinSegs core).getLast? = some '/' := by
        have hne2 : joinSegs core ≠ [] := joinSegs_ne_nil core hneq hnonempty
        have h1 : ('/' :: joinSegs core).getLast? = (joinSegs core).getLast? := by
          show ((['/'] : List Char) ++ joinSegs core).getLast? = _
          exact List.getLast?_append_of_ne_nil ['/'] hne2
        rw [h1]
        exact getLast_joinSegs_ne_slash core hneq (fun s hs => ⟨hnonempty s hs, hnoslash s hs⟩)
      rw [if_neg hlast]

/-- Claim C1: pathWithinRoots allows a path exactly when it equals some
lexically normalized root or extends one immediately past a slash; with root
/var/mobile the paths /var/mobile and /var/mobile/x are allowed while
/var/mobile2 and /var/mobil are not, so a bare string prefix on a
non-separator boundary never matches. -/
theorem pathWithinRoots_boundary_exact :
    (∀ (p : String) (roots : List String),
       pathWithinRoots p roots = true ↔
         ∃ r ∈ roots, p = posixNormalize r ∨
           List.isPrefixOf (posixNormalize r ++ "/").data p.data = true) ∧
    pathWithinRoots "/var/mobile" ["/var/mobile"] = true ∧
    pathWithinRoots "/var/mobile/x" ["/var/mobile"] = true ∧
    pathWithinRoots "/var/mobile2" ["/var/mobile"] = false ∧
    pathWithinRoots "/var/mobil" ["/var/mobile"] = false := by
  refine ⟨?_, rfl, rfl, rfl, rfl⟩
  intro p roots
  simp [pathWithinRoots, List.any_eq_true, Bool.or_eq_true, beq_iff_eq]

/-- Witness for claim C1 at a concrete path strictly below the root. -/
theorem pathWithinRoots_boundary_exact_witness :
    pathWithinRoots "/var/mobile/sub/file" ["/var/mobile"] = true := by
  exact (pathWithinRoots_boundary_exact.1 "/var/mobile/sub/file" ["/var/mobile"]).mpr
    ⟨"/var/mobile", by simp, Or.inr (by decide)⟩

/-- Claim C2: both execution entry points consult the denylist first, so a
denied command fails in both regardless of the declared write paths, and the
read-only entry point also fails on every command the write-intent classifier
flags; a denied or blocked command never produces the execute action. -/
theorem execGuards_deny_before_transport :
    (∀ (c : String) (d : DenyPattern) (wps roots : List String),
       matchDeniedPattern c = some d →
         execReadCommand c = Except.error (ExecError.DeniedByPolicy d.reason) ∧
         execWriteCommand c wps roots = Except.error (ExecError.DeniedByPolicy d.reason)) ∧
    (∀ c : String, isLikelyWriteCommand c = true →
       ∀ a : ExecAction, ¬ execReadCommand c = Except.ok a) := by
  constructor
  · intro c d wps roots hd
    exact ⟨by simp [execReadCommand, hd], by simp [execWriteCommand, hd]⟩
  · intro c hw a h
    unfold execReadCommand at h
    cases hdc : matchDeniedPattern c <;> rw [hdc] at h <;> simp [hw] at h

/-- Witness for claim C2 at the denied command reboot and a write-like
command on the read-only entry point. -/
theorem execGuards_witness :
    execReadCommand "reboot" =
      Except.error (ExecError.DeniedByPolicy "Refuses remote reboot command.") ∧
    execWriteCommand "reboot" ["/var/mobile/a"] ["/var/mobile"] =
      Except.error (ExecError.DeniedByPolicy "Refuses remote reboot command.") ∧
    ¬ execReadCommand "mkdir -p /var/mobile/test" =
        Except.ok (ExecAction.execute "mkdir -p /var/mobile/test") := by
  have h := execGuards_deny_before_transport.1 "reboot" denyReboot ["/var/mobile/a"]
    ["/var/mobile"] rfl
  exact ⟨h.1, h.2,
    execGuards_deny_before_transport.2 "mkdir -p /var/mobile/test" rfl
      (ExecAction.execute "mkdir -p /var/mobile/test")⟩

/-- Claim C3: shellQuote wraps its argument in single quotes with every
literal single quote replaced by the close-escape-reopen run, the two
concrete examples of the specification hold with the stated eight-character
result, and parsing the quoted token as one POSIX shell word yields back
exactly the original string. -/
theorem shellQuote_roundtrip :
    (shellQuote "abc").data = [squote, 'a', 'b', 'c', squote] ∧
    (shellQuote (String.mk ['a', squote, 'b'])).data =
      [squote, 'a', squote, '\\', squote, squote, 'b', squote] ∧
    (shellQuote (String.mk ['a', squote, 'b'])).data.length = 8 ∧
    (∀ s : String, posixParseWord (shellQuote s).data = some s.data) := by
  refine ⟨rfl, rfl, rfl, ?_⟩
  intro s
  show wordAux QState.norm (squote :: (shellQuoteBody s.data ++ [squote])) = some s.data
  rw [wordAux_norm_squote, wordAux_single_shellQuoteBody]

/-- Claim C4: escapeScpRemotePath inserts a single backslash before exactly
the characters of its special class, leaves all other characters unchanged,
satisfies the three concrete examples, and never introduces characters other
than backslashes, so no surrounding quotes are ever added. -/
theorem escapeScpRemotePath_spec :
    (∀ s : String, (escapeScpRemotePath s).data =
        s.data.flatMap (fun c => if isScpSpecial c then ['\\', c] else [c])) ∧
    escapeScpRemotePath "/tmp/file.deb" = "/tmp/file.deb" ∧
    (escapeScpRemotePath "/tmp/my file.deb").data = "/tmp/my\\ file.deb".data ∧
    (escapeScpRemotePath (String.mk ("/tmp/weird".data ++ squote :: "file".data))).data =
      "/tmp/weird\\".data ++ squote :: "file".data ∧
    (∀ (s : String) (c : Char), c ∈ (escapeScpRemotePath s).data → c = '\\' ∨ c ∈ s.data) := by
  refine ⟨?_, rfl, rfl, rfl, ?_⟩
  · intro s
    exact escapeScpBody_eq_bind s.data
  · intro s c hc
    exact escapeScpBody_mem s.data c hc

/-- Witness for claim C4 at a one-character input. -/
theorem escapeScpRemotePath_witness :
    'a' = '\\' ∨ 'a' ∈ ("a" : String).data := by
  exact escapeScpRemotePath_spec.2.2.2.2 "a" 'a' (by decide)

/-- Claim C5: with every path absolute, ensureAllowedWritePaths returns the
normalized paths in input order when all lie within some root, and fails
with a blocked error carrying the full root list and the full list of denied
normalized paths when any lies outside every root; no partial result is
returned. -/
theorem ensureAllowedWritePaths_all_or_nothing :
    ∀ (ps roots : List String), (∀ p ∈ ps, p.data.head? = some '/') →
      ((∀ p ∈ ps, pathWithinRoots (posixNormalize p) roots = true) →
         ensureAllowedWritePaths ps roots = Except.ok (ps.map posixNormalize)) ∧
      ((∃ p ∈ ps, pathWithinRoots (posixNormalize p) roots = false) →
         ensureAllowedWritePaths ps roots =
           Except.error (SecError.WritePathBlocked roots
             ((ps.map posixNormalize).filter fun q => !(pathWithinRoots q roots)))) := by
  intro ps roots habs
  have hn := normalizeAll_ok ps habs
  constructor
  · intro hall
    have hfil : (ps.map posixNormalize).filter (fun q => !(pathWithinRoots q roots)) = [] := by
      apply List.filter_eq_nil_iff.mpr
      intro q hq
      rcases List.mem_map.mp hq with ⟨p, hp, rfl⟩
      simp [hall p hp]
    simp [ensureAllowedWritePaths, hn, hfil]
  · rintro ⟨p, hp, hfalse⟩
    have hmem : posixNormalize p ∈
        (ps.map posixNormalize).filter (fun q => !(pathWithinRoots q roots)) := by
      apply List.mem_filter.mpr
      exact ⟨List.mem_map_of_mem posixNormalize hp, by simp [hfalse]⟩
    have hpos : 0 < ((ps.map posixNormalize).filter
        (fun q => !(pathWithinRoots q roots))).length :=
      List.length_pos.mpr (List.ne_nil_of_mem hmem)
    simp [ensureAllowedWritePaths, hn, hpos]

/-- Witness for claim C5 at the mixed list of the specification: the failure
enumerates the denied path even though the first path was allowed. -/
theorem ensureAllowedWritePaths_all_or_nothing_witness :
    ensureAllowedWritePaths ["/var/mobile/a", "/etc/passwd"] ["/var/mobile"] =
      Except.error (SecError.WritePathBlocked ["/var/mobile"] ["/etc/passwd"]) := by
  have h := (ensureAllowedWritePaths_all_or_nothing ["/var/mobile/a", "/etc/passwd"]
      ["/var/mobile"] (by decide)).2 ⟨"/etc/passwd", by simp, by decide⟩
  rw [h]
  rfl

/-- Claim C6: normalizeRemotePath fails with the invalid-path error exactly
when the input does not start with a slash, the traversal example collapses
as specified, and the relative example is rejected. -/
theorem normalizeRemotePath_invalid_iff :
    (∀ p : String,
       normalizeRemotePath p = Except.error (SecError.InvalidPath p) ↔
         ¬ p.data.head? = some '/') ∧
    normalizeRemotePath "/var/mobile/../mobile/a.txt" = Except.ok "/var/mobile/a.txt" ∧
    normalizeRemotePath "var/mobile/test.txt" =
      Except.error (SecError.InvalidPath "var/mobile/test.txt") := by
  refine ⟨?_, rfl, rfl⟩
  intro p
  by_cases h : p.data.head? = some '/'
  · simp [normalizeRemotePath, h]
  · simp [normalizeRemotePath, h]

/-- Witness for claim C6 at a concrete relative path. -/
theorem normalizeRemotePath_invalid_iff_witness :
    normalizeRemotePath "var/x" = Except.error (SecError.InvalidPath "var/x") := by
  exact (normalizeRemotePath_invalid_iff.1 "var/x").mpr (by decide)

/-- Claim C7: matchDeniedPattern returns the first rule of the fixed table
whose pattern matches, or none when no rule matches; rm -rf slash and reboot
are denied with their declared reasons and ls -la is not denied. -/
theorem matchDeniedPattern_first_match :
    (∀ c : String,
       (matchDeniedPattern c = none ∧ ∀ r ∈ DENY_PATTERNS, reTest r.regex c.data = false) ∨
       (∃ i : Fin DENY_PATTERNS.length,
          matchDeniedPattern c = some (DENY_PATTERNS.get i) ∧
          reTest (DENY_PATTERNS.get i).regex c.data = true ∧
          ∀ j : Fin DENY_PATTERNS.length, j.val < i.val →
            reTest (DENY_PATTERNS.get j).regex c.data = false)) ∧
    matchDeniedPattern "rm -rf /" = some denyRmRf ∧
    denyRmRf.reason = "Refuses full filesystem deletion (rm -rf /)." ∧
    matchDeniedPattern "reboot" = some denyReboot ∧
    denyReboot.reason = "Refuses remote reboot command." ∧
    matchDeniedPattern "ls -la" = none := by
  refine ⟨?_, rfl, rfl, rfl, rfl, rfl⟩
  intro c
  exact find_first_spec (fun r => reTest r.regex c.data) DENY_PATTERNS

/-- Witness for claim C7: the safe listing command matches no denial rule,
extracted from the characterization at that concrete command. -/
theorem matchDeniedPattern_first_match_witness :
    reTest denyRmRf.regex ("ls -la" : String).data = false := by
  rcases matchDeniedPattern_first_match.1 "ls -la" with ⟨_, hall⟩ | ⟨i, hf, _, _⟩
  · exact hall denyRmRf (by simp [DENY_PATTERNS])
  · have hnone : matchDeniedPattern "ls -la" = none := rfl
    rw [hnone] at hf
    exact Option.noConfusion hf

/-- Claim C8: isLikelyWriteCommand is true exactly when some write-intent
signature matches anywhere in the command; the two read commands of the
specification classify as non-write and the two mutating commands as write. -/
theorem isLikelyWriteCommand_spec :
    (∀ c : String, isLikelyWriteCommand c = true ↔
       ∃ r ∈ WRITE_COMMAND_PATTERNS, reTest r c.data = true) ∧
    isLikelyWriteCommand "ls -la /var/mobile" = false ∧
    isLikelyWriteCommand "tail -n 200 /var/log/syslog" = false ∧
    isLikelyWriteCommand "mkdir -p /var/mobile/test" = true ∧
    isLikelyWriteCommand "python3.14 -m pip install requests" = true := by
  refine ⟨?_, rfl, rfl, rfl, rfl⟩
  intro c
  simp [isLikelyWriteCommand, List.any_eq_true]

/-- Witness for claim C8 at a concrete in-place edit command. -/
theorem isLikelyWriteCommand_spec_witness :
    isLikelyWriteCommand "sed -i -e x f" = true := by
  exact (isLikelyWriteCommand_spec.1 "sed -i -e x f").mpr
    ⟨reCat [RE.wb, lits "sed", wsPlus, lits "-i", RE.wb], by decide, by decide⟩

/-- Claim C9: remote-path normalization is idempotent on absolute paths:
normalizing succeeds, its result is accepted unchanged when normalized
again, and the double normalization equals the single one. -/
theorem normalizeRemotePath_idempotent :
    ∀ p : String, p.data.head? = some '/' →
      normalizeRemotePath p = Except.ok (posixNormalize p) ∧
      normalizeRemotePath (posixNormalize p) = Except.ok (posixNormalize p) ∧
      posixNormalize (posixNormalize p) = posixNormalize p := by
  intro p h
  have hspec := posix_norm_abs_spec p.data h
  have habs2 : (posixNormalize p).data.head? = some '/' := hspec.1
  have hidem : posixNormalize (posixNormalize p) = posixNormalize p := by
    show String.mk (posixNormalizeChars (posixNormalizeChars p.data)) =
      String.mk (posixNormalizeChars p.data)
    rw [hspec.2]
  exact ⟨by simp [normalizeRemotePath, h],
    by simp [normalizeRemotePath, habs2, hidem], hidem⟩

/-- Witness for claim C9 at the traversal example of the specification. -/
theorem normalizeRemotePath_idempotent_witness :
    posixNormalize (posixNormalize "/var/mobile/../mobile/a.txt") =
      posixNormalize "/var/mobile/../mobile/a.txt" :=
  (normalizeRemotePath_idempotent "/var/mobile/../mobile/a.txt" (by decide)).2.2

/-- Claim C10: when some declared path is not absolute, the write-path check
fails with the invalid-path normalization error for a non-absolute element,
not with the blocked error, because normalization precedes every membership
decision. -/
theorem ensureAllowedWritePaths_invalid_before_membership :
    ∀ (ps roots : List String) (p : String), p ∈ ps → ¬ p.data.head? = some '/' →
      ∃ q, q ∈ ps ∧ ¬ q.data.head? = some '/' ∧
        ensureAllowedWritePaths ps roots = Except.error (SecError.InvalidPath q) := by
  intro ps roots p hp hbad
  rcases normalizeAll_first_invalid ps p hp hbad with ⟨q, hq, hqb, he⟩
  exact ⟨q, hq, hqb, by simp [ensureAllowedWritePaths, he]⟩

/-- Witness for claim C10 at a concrete relative path list. -/
theorem ensureAllowedWritePaths_invalid_witness :
    ensureAllowedWritePaths ["relative.txt"] [] =
      Except.error (SecError.InvalidPath "relative.txt") := by
  rcases ensureAllowedWritePaths_invalid_before_membership ["relative.txt"] [] "relative.txt"
      (by simp) (by decide) with ⟨q, hq, _, he⟩
  have hq2 : q = "relative.txt" := by simpa using hq
  subst hq2
  exact he
